import Mathlib

/-! Shallow embedding of the font pipeline of
`src/PCF-Controls/CustomRichTextControl/src/fontHelper.ts`
(the canonical variant of the two near-duplicate implementations in the
repository, as the spec's design notes designate it).

JS string primitives (`split`, `startsWith`, `includes`, `endsWith`,
`toLowerCase`) are modelled character-by-character so every definition
computes by structural recursion. -/

namespace FontHelper

/-- `startsWithList l p` is true when `p` is an initial segment of `l`
(the model of JS `String.prototype.startsWith`). -/
def startsWithList : List Char → List Char → Bool
  | _, [] => true
  | [], _ :: _ => false
  | c :: cs, p :: ps => c = p && startsWithList cs ps

/-- `containsList p l` is true when `p` occurs contiguously inside `l`
(the model of JS `String.prototype.includes`). -/
def containsList (p : List Char) : List Char → Bool
  | [] => startsWithList [] p
  | c :: cs => startsWithList (c :: cs) p || containsList p cs

/-- Split a character list at every occurrence of the separator character
(the model of JS `String.prototype.split` with a one-character separator:
`split` never returns an empty array, and an empty input yields `[""]`). -/
def splitChar (sep : Char) : List Char → List (List Char)
  | [] => [[]]
  | c :: cs =>
    match splitChar sep cs with
    | [] => if c = sep then [[], []] else [[c]]
    | h :: t => if c = sep then [] :: h :: t else (c :: h) :: t

/-- JS `url.startsWith(p)`. -/
def jsStartsWith (s p : String) : Bool := startsWithList s.data p.data

/-- JS `url.includes(p)`. -/
def jsIncludes (s p : String) : Bool := containsList p.data s.data

/-- JS `url.endsWith(p)` (checked on the reversed characters). -/
def jsEndsWith (s p : String) : Bool :=
  startsWithList s.data.reverse p.data.reverse

/-- JS `s.toLowerCase()` (ASCII case folding, which covers every
extension and keyword the code compares against). -/
def jsToLower (s : String) : String := ⟨s.data.map Char.toLower⟩

/-- JS `s.split(sep)` for a one-character separator, as strings. -/
def jsSplit (sep : Char) (s : String) : List String :=
  (splitChar sep s.data).map fun l => ⟨l⟩

/-- JS string truthiness: a string is falsy exactly when it is empty. -/
def jsTruthy (s : String) : Bool := !(s.data.isEmpty)

/-- The lowercased text after the last `.` of the URL, the way
`url.split('.').pop()?.toLowerCase()` computes it. -/
def urlExtension (url : String) : Option String :=
  ((jsSplit '.' url).getLast?).map jsToLower

/-- `getFontMimeTypeFromUrl` from fontHelper.ts: maps the file extension
of a URL to a font MIME type, with `application/octet-stream` as the
fallback of the `switch`. -/
def getFontMimeTypeFromUrl (url : String) : String :=
  match urlExtension url with
  | some e =>
    if e = "ttf" then "font/ttf"
    else if e = "otf" then "font/otf"
    else if e = "woff" then "font/woff"
    else if e = "woff2" then "font/woff2"
    else if e = "eot" then "application/vnd.ms-fontobject"
    else "application/octet-stream"
  | none => "application/octet-stream"

/-- The `FontInfo` interface of fontHelper.ts: one selectable font. -/
structure FontInfo where
  name : String
  quillValue : String
  url : String
  cssFamily : String
deriving DecidableEq

/-- An opaque binary body, as obtained from `response.blob()`. -/
structure Blob where
  bytes : List Nat
deriving DecidableEq

/-- What `fetch(url)` does in the surrounding environment: the promise
either rejects (network error) or yields a response with an `ok` flag
and a body blob. -/
inductive FetchOutcome where
  | reject : FetchOutcome
  | response (ok : Bool) (blob : Blob) : FetchOutcome
deriving DecidableEq

/-- What the `FileReader` does on a blob: `reader.result` is a string
(the data URL), `reader.result` is not a string, or `onerror` fires. -/
inductive ReaderOutcome where
  | loadString (s : String) : ReaderOutcome
  | loadOther : ReaderOutcome
  | readerError : ReaderOutcome
deriving DecidableEq

/-- The environment the loader runs in: a fetch oracle and a
`FileReader` oracle. -/
structure World where
  fetch : String → FetchOutcome
  read : Blob → ReaderOutcome

/-- The settled state of a JS promise: resolved with a value, or
rejected. -/
inductive PromiseResult (α : Type) where
  | resolved (a : α) : PromiseResult α
  | rejected : PromiseResult α
deriving DecidableEq

/-- `getFontDataUri` from fontHelper.ts. The first component is the
settled state of the returned promise; the second lists the URLs the
call actually fetched.

Faithful to the control flow of the source: the guard returns `null`
for URLs starting with `http` and for empty URLs before any fetch; a
fetch rejection and a non-2xx response are thrown inside the `try` and
the `catch` converts them to `null`; but the `FileReader` promise is
produced by a plain `return new Promise(...)` — not `return await` — so
by JS semantics a rejection of that inner promise happens after the
`try`/`catch` frame is gone and rejects the promise `getFontDataUri`
returned. -/
def getFontDataUri (w : World) (fontUrl : String) :
    PromiseResult (Option String) × List String :=
  if jsStartsWith fontUrl "http" || !(jsTruthy fontUrl) then
    (.resolved none, [])
  else
    match w.fetch fontUrl with
    | .reject => (.resolved none, [fontUrl])
    | .response ok blob =>
      if !ok then (.resolved none, [fontUrl])
      else
        match w.read blob with
        | .loadString s => (.resolved (some s), [fontUrl])
        | .loadOther => (.rejected, [fontUrl])
        | .readerError => (.rejected, [fontUrl])

/-- The mutable state the registrar touches: the `whitelist` field of
the `formats/font` attributor class, and the argument pair of the last
`Quill.register` call (the class, identified here by its whitelist, and
the overwrite flag). -/
structure QuillState where
  fontWhitelist : List String
  lastRegistered : Option (List String × Bool)
deriving DecidableEq

/-- `registerQuillFonts` from fontHelper.ts: overwrite the attributor's
whitelist with the descriptors' `quillValue`s and re-register the class
with the overwrite flag set. -/
def registerQuillFonts (fonts : List FontInfo) (_q : QuillState) : QuillState :=
  let wl := fonts.map (fun f => f.quillValue)
  { fontWhitelist := wl, lastRegistered := some (wl, true) }

/-- The Data-URI Map (`Record<string, string>` keyed by `font.name`),
as an association list with the most recent assignment first. -/
abbrev UriRecord := List (String × String)

/-- `uris[name]` on the record: the most recent assignment, if any. -/
def recGet (m : UriRecord) (n : String) : Option String :=
  match m with
  | [] => none
  | (k, v) :: t => if n = k then some v else recGet t n

/-- The CSS-service heuristic of `injectFontStyles`:
`font.url.startsWith('http') && (font.url.toLowerCase().endsWith('.css') || font.url.includes('family='))`. -/
def isExternalCssLink (url : String) : Bool :=
  jsStartsWith url "http" &&
    (jsEndsWith (jsToLower url) ".css" || jsIncludes url "family=")

/-- `injectFontStyles`' test for a direct external font-file URL:
starts with `http`, is not a CSS link, and has a recognized MIME type. -/
def isExternalFontFile (url : String) : Bool :=
  jsStartsWith url "http" && !isExternalCssLink url &&
    !(getFontMimeTypeFromUrl url == "application/octet-stream")

/-- `injectFontStyles`' test for a local font file:
`font.url && !font.url.startsWith('http')`. -/
def isLocalFontFile (url : String) : Bool :=
  jsTruthy url && !jsStartsWith url "http"

/-- `getFontMimeTypeFromUrl(url).split('/')[1]` followed by the
`'ttf' ↦ 'truetype'` rewrite of `injectFontStyles`. -/
def cssFormatForUrl (url : String) : String :=
  let fmt := (jsSplit '/' (getFontMimeTypeFromUrl url)).getD 1 ""
  if fmt = "ttf" then "truetype" else fmt

/-- One CSS block written into `allFontCss`. The source concatenates
template strings; each block of that concatenation is kept here in
structured form, with `renderCssItem` giving its exact text. -/
inductive CssItem where
  | fontFace (family src fmt : String) : CssItem
  | pickerLabel (quillValue name cssFamily : String) : CssItem
  | contentClass (quillValue cssFamily : String) : CssItem
deriving DecidableEq

/-- The exact template text of each block (the source emits the picker
label and the content class as one template literal; its text is the
concatenation of the two renders here). -/
def renderCssItem : CssItem → String
  | .fontFace family src fmt =>
    "\n@font-face \x7b\n  font-family: '" ++ family ++ "';\n  src: url('" ++ src
      ++ "') format('" ++ fmt
      ++ "');\n  font-weight: normal; /* Customize if your font has specific weights */\n  font-style: normal;  /* Customize if your font has specific styles */\n  font-display: swap; /* Add this for better font loading behavior */\n\x7d\n"
  | .pickerLabel qv name fam =>
    "\n/* Styles for font picker dropdown label */\n.ql-picker.ql-font .ql-picker-label[data-value=\"" ++ qv
      ++ "\"]::before,\n.ql-picker.ql-font .ql-picker-item[data-value=\"" ++ qv
      ++ "\"]::before \x7b\n  content: \"" ++ name
      ++ "\"; /* Displays the user-friendly name in the dropdown */\n  font-family: " ++ fam
      ++ "; /* Applies the cssFamily (e.g., 'Virgin Money Loop, sans-serif') */\n\x7d\n"
  | .contentClass qv fam =>
    "/* Styles for actual content in the editor */\n.ql-font-" ++ qv
      ++ " \x7b\n  font-family: " ++ fam
      ++ "; /* Applies the cssFamily (e.g., 'Virgin Money Loop, sans-serif') */\n\x7d\n"

/-- The `console.warn` text of the missing-data-URI branch. -/
def warnMessage (name : String) : String :=
  "Font data URI not found for " ++ name ++ ". Skipping @font-face injection."

/-- The id of the `<link>` element for a descriptor:
`font-link-${font.quillValue}`. -/
def linkId (font : FontInfo) : String := "font-link-" ++ font.quillValue

/-- The two Quill scoping rules emitted unconditionally for every
descriptor (step 4 of the loop body). -/
def scopingRules (font : FontInfo) : List CssItem :=
  [.pickerLabel font.quillValue font.name font.cssFamily,
   .contentClass font.quillValue font.cssFamily]

/-- Everything one iteration of the `fonts.forEach` loop decides from
the descriptor and the Data-URI Map alone: the `<link>` it would ensure
(id and href), the CSS blocks it appends, and the warnings it logs. -/
structure FontAction where
  linkCandidate : Option (String × String)
  css : List CssItem
  warnings : List String
deriving DecidableEq

/-- One iteration of the `fonts.forEach` body of `injectFontStyles`,
following its `if`/`else if` chain. -/
def fontAction (uris : UriRecord) (font : FontInfo) : FontAction :=
  if isExternalCssLink font.url then
    { linkCandidate := some (linkId font, font.url),
      css := scopingRules font, warnings := [] }
  else if isExternalFontFile font.url then
    { linkCandidate := none,
      css := .fontFace font.name font.url (cssFormatForUrl font.url) :: scopingRules font,
      warnings := [] }
  else if isLocalFontFile font.url then
    match recGet uris font.name with
    | some d =>
      { linkCandidate := none,
        css := .fontFace font.name d (cssFormatForUrl font.url) :: scopingRules font,
        warnings := [] }
    | none =>
      { linkCandidate := none, css := scopingRules font,
        warnings := [warnMessage font.name] }
  else
    { linkCandidate := none, css := scopingRules font, warnings := [] }

/-- The slice of the document the pipeline touches: the text of the
singleton `<style id="quill-dynamic-font-style">` element (`none` when
the element is absent) and the `(id, href)` pairs of the `<link>`
elements in the head, in insertion order. -/
structure Dom where
  styleContent : Option String
  links : List (String × String)
deriving DecidableEq

/-- The `<link>`-ensuring step: `if (!document.getElementById(id))`
append a link with that id and href, else leave the DOM alone. -/
def addLink (ls : List (String × String)) :
    Option (String × String) → List (String × String)
  | none => ls
  | some (id, href) =>
    if ls.any (fun l => l.1 == id) then ls else ls ++ [(id, href)]

/-- Result of one `injectFontStyles` call: the new DOM slice and the
warnings logged during the loop. -/
structure InjectResult where
  dom : Dom
  warnings : List String
deriving DecidableEq

/-- All CSS blocks of one call, in loop order (`allFontCss` is their
rendered concatenation). -/
def injectCssItems (uris : UriRecord) (fonts : List FontInfo) : List CssItem :=
  ((fonts.map (fontAction uris)).map (fun a => a.css)).flatten

/-- `injectFontStyles` from fontHelper.ts: ensure the singleton style
element, run the per-font loop (threading the live link list through
the de-duplication checks), then assign `style.innerHTML = allFontCss`
in one go. -/
def injectFontStyles (fonts : List FontInfo) (uris : UriRecord) (dom : Dom) :
    InjectResult :=
  let acts := fonts.map (fontAction uris)
  { dom :=
      { styleContent :=
          some (String.join ((injectCssItems uris fonts).map renderCssItem)),
        links := acts.foldl (fun ls a => addLink ls a.linkCandidate) dom.links },
    warnings := (acts.map (fun a => a.warnings)).flatten }

/-- `document.getElementById(id)?.remove()`: the DOM holds at most one
element per id, so removal drops the first (only) entry with that id. -/
def removeFirstWithId (id : String) :
    List (String × String) → List (String × String)
  | [] => []
  | l :: ls => if l.1 == id then ls else l :: removeFirstWithId id ls

/-- `cleanupFontStyles` from fontHelper.ts: remove the singleton style
element if present, then remove each descriptor's `<link>` by its
reconstructed id. -/
def cleanupFontStyles (fonts : List FontInfo) (dom : Dom) : Dom :=
  { styleContent := none,
    links := fonts.foldl (fun ls f => removeFirstWithId (linkId f) ls) dom.links }

/-- Observable milestones of one `applyFonts` run, in order. -/
inductive Event where
  | fetchSettled (name : String) : Event
  | registered : Event
  | injected : Event
deriving DecidableEq

/-- The guard of the `Promise.all` callback in `applyFonts`:
`font.url && !font.url.startsWith('http')`. -/
def isLocalUrl (url : String) : Bool := jsTruthy url && !jsStartsWith url "http"

/-- Whether a loader promise rejected. -/
def isRejected : PromiseResult (Option String) → Bool
  | .rejected => true
  | .resolved _ => false

/-- The Data-URI Map `applyFonts` builds: one
`loadedFontDataUris[font.name] = dataUri` assignment per local font
whose loader resolved with a string; a later assignment to the same
name shadows an earlier one. -/
def buildMap (w : World) (locals : List FontInfo) : UriRecord :=
  locals.foldl
    (fun m f =>
      match (getFontDataUri w f.url).1 with
      | .resolved (some d) => (f.name, d) :: m
      | _ => m) []

/-- The state `applyFonts` reads and writes: the DOM slice and the
Quill registry. -/
structure AppState where
  dom : Dom
  quill : QuillState
deriving DecidableEq

/-- `applyFonts` from fontHelper.ts, as an event trace plus the settled
result. `Promise.all` is modelled as: every per-font promise settles
(one event per local font); if any loader promise rejected,
`Promise.all` — and with it `applyFonts` — rejects, and neither the
registrar nor the injector runs; otherwise the registrar runs, then the
injector, on the map of collected successes. -/
def applyFonts (w : World) (fonts : List FontInfo) (st : AppState) :
    List Event × PromiseResult (AppState × List String) :=
  let locals := fonts.filter (fun f => isLocalUrl f.url)
  let events := locals.map (fun f => Event.fetchSettled f.name)
  if locals.any (fun f => isRejected (getFontDataUri w f.url).1) then
    (events, .rejected)
  else
    let uris := buildMap w locals
    let q := registerQuillFonts fonts st.quill
    let inj := injectFontStyles fonts uris st.dom
    (events ++ [.registered, .injected],
     .resolved ({ dom := inj.dom, quill := q }, inj.warnings))

/-! ### Helper lemmas -/

theorem splitChar_ne_nil (sep : Char) (l : List Char) : splitChar sep l ≠ [] := by
  cases l with
  | nil => simp [splitChar]
  | cons c cs =>
    simp only [splitChar]
    cases h : splitChar sep cs <;> split <;> split <;> simp

theorem urlExtension_isSome (url : String) : ∃ e, urlExtension url = some e := by
  unfold urlExtension jsSplit
  rcases h : ((splitChar '.' url.data).map (fun l => (⟨l⟩ : String))).getLast? with _ | e
  · rw [List.getLast?_eq_none_iff] at h
    exact absurd (List.map_eq_nil_iff.mp h) (splitChar_ne_nil '.' url.data)
  · exact ⟨jsToLower e, by simp [h]⟩

/-- The MIME table exactly as the spec words it, as a function of the
(lowercased) extension; the claim compares the code against this. -/
def specMimeForExtension (e : String) : String :=
  if e = "ttf" then "font/ttf"
  else if e = "otf" then "font/otf"
  else if e = "woff" then "font/woff"
  else if e = "woff2" then "font/woff2"
  else if e = "eot" then "application/vnd.ms-fontobject"
  else "application/octet-stream"

/-! ### Claim theorems -/

/-- C9: for every URL string, the MIME type derived from its file
extension is `ttf→font/ttf`, `otf→font/otf`, `woff→font/woff`,
`woff2→font/woff2`, `eot→application/vnd.ms-fontobject`, and
`application/octet-stream` for any other extension. -/
theorem c9_mime_follows_extension_table (url : String) :
    ∃ e, urlExtension url = some e ∧
      getFontMimeTypeFromUrl url = specMimeForExtension e := by
  obtain ⟨e, he⟩ := urlExtension_isSome url
  exact ⟨e, he, by simp [getFontMimeTypeFromUrl, he, specMimeForExtension]⟩

/-- C9 witness: the table evaluated at a concrete URL. -/
theorem c9_mime_follows_extension_table_witness :
    urlExtension "fonts/custom.TTF" = some "ttf" ∧
      getFontMimeTypeFromUrl "fonts/custom.TTF" = specMimeForExtension "ttf" := by
  obtain ⟨e, he, hm⟩ := c9_mime_follows_extension_table "fonts/custom.TTF"
  have : e = "ttf" := by
    have : urlExtension "fonts/custom.TTF" = some "ttf" := by decide
    rw [this] at he
    exact (Option.some_inj.mp he).symm
  exact ⟨this ▸ he, this ▸ hm⟩

/-- C2: for every input string and every environment, `getFontDataUri`
returns `null` immediately — performing no fetch — when the string is
empty or begins with `http`. -/
theorem c2_loader_skips_empty_and_http (w : World) (url : String)
    (h : url = "" ∨ jsStartsWith url "http" = true) :
    getFontDataUri w url = (.resolved none, []) := by
  rcases h with h | h
  · subst h; rfl
  · simp [getFontDataUri, h]

/-- C2 witness: both guard cases at concrete inputs, in a concrete
environment whose fetch oracle would have succeeded. -/
theorem c2_loader_skips_empty_and_http_witness :
    getFontDataUri ⟨fun _ => .response true ⟨[0]⟩, fun _ => .loadString "data:x"⟩ ""
        = (.resolved none, []) ∧
      getFontDataUri ⟨fun _ => .response true ⟨[0]⟩, fun _ => .loadString "data:x"⟩
          "https://example.com/a.ttf"
        = (.resolved none, []) :=
  ⟨c2_loader_skips_empty_and_http _ "" (Or.inl rfl),
   c2_loader_skips_empty_and_http _ "https://example.com/a.ttf" (Or.inr (by decide))⟩

/-- C8: for every font descriptor set and every prior registry state,
`registerQuillFonts` sets the font attributor's whitelist to exactly
the sequence of `quillValue`s of the supplied descriptors and
re-registers the class with the overwrite flag set, replacing whatever
was registered before; on the example set
`[{name:"Arial", quillValue:"arial", url:"", cssFamily:"Arial, sans-serif"}]`
the whitelist becomes `["arial"]`. -/
theorem c8_registrar_sets_whitelist (fonts : List FontInfo) (q : QuillState) :
    (registerQuillFonts fonts q).fontWhitelist = fonts.map (fun f => f.quillValue) ∧
      (registerQuillFonts fonts q).lastRegistered
        = some (fonts.map (fun f => f.quillValue), true) ∧
      (registerQuillFonts [⟨"Arial", "arial", "", "Arial, sans-serif"⟩] q).fontWhitelist
        = ["arial"] :=
  ⟨rfl, rfl, rfl⟩

theorem cssFormat_of_ttf (url : String) (h : urlExtension url = some "ttf") :
    cssFormatForUrl url = "truetype" := by
  unfold cssFormatForUrl
  rw [show getFontMimeTypeFromUrl url = "font/ttf" by
    simp [getFontMimeTypeFromUrl, h]]
  decide

theorem fontAction_css_ends_with_scoping (uris : UriRecord) (font : FontInfo) :
    ∃ pre, (fontAction uris font).css = pre ++ scopingRules font := by
  unfold fontAction
  split
  · exact ⟨[], rfl⟩
  · split
    · exact ⟨[CssItem.fontFace font.name font.url (cssFormatForUrl font.url)], rfl⟩
    · split
      · rcases recGet uris font.name with _ | d
        · exact ⟨[], rfl⟩
        · exact ⟨[CssItem.fontFace font.name d (cssFormatForUrl font.url)], rfl⟩
      · exact ⟨[], rfl⟩

theorem css_mem_injectCssItems (uris : UriRecord) (fonts : List FontInfo)
    (font : FontInfo) (hf : font ∈ fonts) (x : CssItem)
    (hx : x ∈ (fontAction uris font).css) : x ∈ injectCssItems uris fonts := by
  unfold injectCssItems
  rw [List.mem_flatten]
  refine ⟨(fontAction uris font).css, ?_, hx⟩
  rw [List.mem_map]
  exact ⟨fontAction uris font, List.mem_map_of_mem _ hf, rfl⟩

theorem warn_mem_injectFontStyles (fonts : List FontInfo) (uris : UriRecord)
    (dom : Dom) (font : FontInfo) (hf : font ∈ fonts) (s : String)
    (hs : s ∈ (fontAction uris font).warnings) :
    s ∈ (injectFontStyles fonts uris dom).warnings := by
  show s ∈ ((fonts.map (fontAction uris)).map (fun a => a.warnings)).flatten
  rw [List.mem_flatten]
  refine ⟨(fontAction uris font).warnings, ?_, hs⟩
  rw [List.mem_map]
  exact ⟨fontAction uris font, List.mem_map_of_mem _ hf, rfl⟩

/-- C5: for every descriptor — including system fonts with empty URL —
the injector emits the dropdown-picker label rule (content = `name`,
font-family = `cssFamily`, keyed by `data-value = quillValue`) and the
in-editor content-class rule `.ql-font-{quillValue}` with font-family
`cssFamily`; and for an empty URL no `@font-face` rule (and no link) is
produced for that descriptor. -/
theorem c5_scoping_rules_always_emitted (uris : UriRecord) (fonts : List FontInfo)
    (font : FontInfo) :
    (∃ pre, (fontAction uris font).css
        = pre ++ [CssItem.pickerLabel font.quillValue font.name font.cssFamily,
                  CssItem.contentClass font.quillValue font.cssFamily]) ∧
      (font ∈ fonts →
        CssItem.pickerLabel font.quillValue font.name font.cssFamily
            ∈ injectCssItems uris fonts ∧
          CssItem.contentClass font.quillValue font.cssFamily
            ∈ injectCssItems uris fonts) ∧
      (font.url = "" →
        (fontAction uris font).css
            = [CssItem.pickerLabel font.quillValue font.name font.cssFamily,
               CssItem.contentClass font.quillValue font.cssFamily] ∧
          (fontAction uris font).linkCandidate = none ∧
          ∀ fam src fmt, CssItem.fontFace fam src fmt ∉ (fontAction uris font).css) := by
  obtain ⟨pre, hpre⟩ := fontAction_css_ends_with_scoping uris font
  refine ⟨⟨pre, hpre⟩, fun hf => ?_, fun hurl => ?_⟩
  · constructor
    · exact css_mem_injectCssItems uris fonts font hf _
        (by rw [hpre]; simp [scopingRules])
    · exact css_mem_injectCssItems uris fonts font hf _
        (by rw [hpre]; simp [scopingRules])
  · have e1 : isExternalCssLink font.url = false := by rw [hurl]; decide
    have e2 : isExternalFontFile font.url = false := by rw [hurl]; decide
    have e3 : isLocalFontFile font.url = false := by rw [hurl]; decide
    refine ⟨?_, ?_, ?_⟩ <;> simp [fontAction, e1, e2, e3, scopingRules]

/-- C5 witness: the system-font example descriptor. -/
theorem c5_scoping_rules_always_emitted_witness :
    (fontAction [] ⟨"Arial", "arial", "", "Arial, sans-serif"⟩).css
        = [CssItem.pickerLabel "arial" "Arial" "Arial, sans-serif",
           CssItem.contentClass "arial" "Arial, sans-serif"] ∧
      CssItem.pickerLabel "arial" "Arial" "Arial, sans-serif"
        ∈ injectCssItems [] [⟨"Arial", "arial", "", "Arial, sans-serif"⟩] :=
  ⟨((c5_scoping_rules_always_emitted []
      [⟨"Arial", "arial", "", "Arial, sans-serif"⟩]
      ⟨"Arial", "arial", "", "Arial, sans-serif"⟩).2.2 rfl).1,
   ((c5_scoping_rules_always_emitted []
      [⟨"Arial", "arial", "", "Arial, sans-serif"⟩]
      ⟨"Arial", "arial", "", "Arial, sans-serif"⟩).2.1
      (List.mem_cons_self _ _)).1⟩

/-- C10: a descriptor whose URL starts with `http` but neither matches
the CSS-service heuristic nor has a recognized font extension (its
derived MIME type is `application/octet-stream`) produces neither a
`<link>` nor an `@font-face` block — only the two scoping rules. -/
theorem c10_unrecognized_http_url_emits_only_scoping (uris : UriRecord)
    (font : FontInfo)
    (h1 : jsStartsWith font.url "http" = true)
    (h2 : isExternalCssLink font.url = false)
    (h3 : getFontMimeTypeFromUrl font.url = "application/octet-stream") :
    (fontAction uris font).linkCandidate = none ∧
      (fontAction uris font).css = scopingRules font ∧
      (fontAction uris font).warnings = [] := by
  have e2 : isExternalFontFile font.url = false := by
    simp [isExternalFontFile, h3]
  have e3 : isLocalFontFile font.url = false := by
    simp [isLocalFontFile, h1]
  refine ⟨?_, ?_, ?_⟩ <;> simp [fontAction, h2, e2, e3]

/-- C10 witness: a remote URL with an unrecognized extension. -/
theorem c10_unrecognized_http_url_emits_only_scoping_witness :
    (fontAction [] ⟨"X", "x", "http://example.com/font.bin", "X"⟩).linkCandidate
        = none ∧
      (fontAction [] ⟨"X", "x", "http://example.com/font.bin", "X"⟩).css
        = scopingRules ⟨"X", "x", "http://example.com/font.bin", "X"⟩ :=
  ⟨(c10_unrecognized_http_url_emits_only_scoping []
      ⟨"X", "x", "http://example.com/font.bin", "X"⟩
      (by decide) (by decide) (by decide)).1,
   (c10_unrecognized_http_url_emits_only_scoping []
      ⟨"X", "x", "http://example.com/font.bin", "X"⟩
      (by decide) (by decide) (by decide)).2.1⟩

/-- C4: for every descriptor with a local-path URL: a Data-URI Map entry
under the descriptor's name yields an `@font-face` block whose `src` is
that data URI (with `format('truetype')` when the extension is `ttf`),
while a missing entry yields no `@font-face` block for that descriptor
and logs the warning. -/
theorem c4_local_descriptor_fontface (uris : UriRecord) (fonts : List FontInfo)
    (dom : Dom) (font : FontInfo)
    (hlocal : isLocalFontFile font.url = true) :
    (∀ d, recGet uris font.name = some d →
      (fontAction uris font).css
          = CssItem.fontFace font.name d (cssFormatForUrl font.url)
              :: scopingRules font ∧
        (fontAction uris font).warnings = [] ∧
        (urlExtension font.url = some "ttf" → cssFormatForUrl font.url = "truetype") ∧
        (font ∈ fonts →
          CssItem.fontFace font.name d (cssFormatForUrl font.url)
            ∈ injectCssItems uris fonts)) ∧
      (recGet uris font.name = none →
        (∀ fam src fmt, CssItem.fontFace fam src fmt ∉ (fontAction uris font).css) ∧
          (fontAction uris font).warnings = [warnMessage font.name] ∧
          (font ∈ fonts →
            warnMessage font.name ∈ (injectFontStyles fonts uris dom).warnings)) := by
  have hs : jsStartsWith font.url "http" = false := by
    have h := hlocal
    simp only [isLocalFontFile, Bool.and_eq_true, Bool.not_eq_true'] at h
    exact h.2
  have e1 : isExternalCssLink font.url = false := by
    simp [isExternalCssLink, hs]
  have e2 : isExternalFontFile font.url = false := by
    simp [isExternalFontFile, hs]
  constructor
  · intro d hd
    refine ⟨?_, ?_, cssFormat_of_ttf font.url, ?_⟩
    · simp [fontAction, e1, e2, hlocal, hd]
    · simp [fontAction, e1, e2, hlocal, hd]
    · intro hf
      refine css_mem_injectCssItems uris fonts font hf _ ?_
      simp [fontAction, e1, e2, hlocal, hd]
  · intro hn
    refine ⟨?_, ?_, ?_⟩
    · intro fam src fmt
      simp [fontAction, e1, e2, hlocal, hn, scopingRules]
    · simp [fontAction, e1, e2, hlocal, hn]
    · intro hf
      refine warn_mem_injectFontStyles fonts uris dom font hf _ ?_
      simp [fontAction, e1, e2, hlocal, hn]

/-- C4 witness: the spec's `custom.woff2` example with a present map
entry, and the same descriptor with an empty map. -/
theorem c4_local_descriptor_fontface_witness :
    (fontAction [("Custom", "data:font/woff2;base64,AAAA")]
        ⟨"Custom", "custom-font", "/fonts/custom.woff2", "Custom"⟩).css
        = CssItem.fontFace "Custom" "data:font/woff2;base64,AAAA" "woff2"
            :: scopingRules ⟨"Custom", "custom-font", "/fonts/custom.woff2", "Custom"⟩ ∧
      (fontAction [] ⟨"Custom", "custom-font", "/fonts/custom.woff2", "Custom"⟩).warnings
        = [warnMessage "Custom"] := by
  constructor
  · have h := ((c4_local_descriptor_fontface
      [("Custom", "data:font/woff2;base64,AAAA")] [] ⟨none, []⟩
      ⟨"Custom", "custom-font", "/fonts/custom.woff2", "Custom"⟩ (by decide)).1
      "data:font/woff2;base64,AAAA" (by decide)).1
    rwa [show cssFormatForUrl "/fonts/custom.woff2" = "woff2" from by decide] at h
  · exact ((c4_local_descriptor_fontface [] [] ⟨none, []⟩
      ⟨"Custom", "custom-font", "/fonts/custom.woff2", "Custom"⟩ (by decide)).2
      (by decide)).2.1

/-- A concrete environment where every fetch succeeds with an ok
response but the FileReader errors on every blob. -/
def decodeFailWorld : World where
  fetch := fun _ => .response true ⟨[]⟩
  read := fun _ => .readerError

/-- A concrete environment whose fetch always rejects. -/
def fetchRejectWorld : World where
  fetch := fun _ => .reject
  read := fun _ => .loadString "data:font/ttf;base64,AAAA"

/-- C1 counterexample: with a succeeding fetch and a failing
FileReader, the promise `getFontDataUri` returns for the local URL
`fonts/custom.ttf` rejects — the decode failure is not converted to a
`null` result, because the inner promise is returned by plain `return`
(not `return await`), so the `catch` frame is already gone when the
`FileReader` rejects. -/
theorem c1_counterexample_decode_failure_rejects :
    (getFontDataUri decodeFailWorld "fonts/custom.ttf").1 = .rejected := rfl

/-- C1 amended: every fetch error and every non-2xx HTTP response is
caught and converted to a `null` result, but a FileReader (decode)
failure is not: the returned promise rejects exactly when the URL is
non-empty, does not begin with `http`, the fetch yields an ok response,
and the FileReader fails to produce a string result. -/
theorem c1_amended_failure_policy (w : World) (url : String) :
    ((w.fetch url = .reject ∨ ∃ b, w.fetch url = .response false b) →
      (getFontDataUri w url).1 = .resolved none) ∧
      ((getFontDataUri w url).1 = .rejected ↔
        jsStartsWith url "http" = false ∧ jsTruthy url = true ∧
          ∃ b, w.fetch url = .response true b ∧
            ∀ s, w.read b ≠ .loadString s) := by
  by_cases hg : (jsStartsWith url "http" || !jsTruthy url) = true
  · have hval : (getFontDataUri w url).1 = .resolved none := by
      simp [getFontDataUri, hg]
    refine ⟨fun _ => hval, ?_⟩
    rw [hval]
    constructor
    · intro h; cases h
    · rintro ⟨h1, h2, -⟩
      rw [h1, h2] at hg
      exact absurd hg (by decide)
  · have hg' : (jsStartsWith url "http" || !jsTruthy url) = false := by
      simpa using hg
    have hs : jsStartsWith url "http" = false := by
      rcases Bool.or_eq_false_iff.mp hg' with ⟨h, -⟩; exact h
    have ht : jsTruthy url = true := by
      rcases Bool.or_eq_false_iff.mp hg' with ⟨-, h⟩
      simpa using h
    rcases hf : w.fetch url with - | ⟨ok, b⟩
    · have hval : (getFontDataUri w url).1 = .resolved none := by
        simp [getFontDataUri, hg', hf]
      refine ⟨fun _ => hval, ?_⟩
      rw [hval]
      constructor
      · intro h; cases h
      · rintro ⟨-, -, b, hb, -⟩; cases hb
    · cases ok with
      | false =>
        have hval : (getFontDataUri w url).1 = .resolved none := by
          simp [getFontDataUri, hg', hf]
        refine ⟨fun _ => hval, ?_⟩
        rw [hval]
        constructor
        · intro h; cases h
        · rintro ⟨-, -, b', hb, -⟩; cases hb
      | true =>
        have hfirst : (FetchOutcome.response true b = FetchOutcome.reject ∨
            ∃ b', FetchOutcome.response true b = FetchOutcome.response false b') →
            (getFontDataUri w url).1 = .resolved none := by
          rintro (h | ⟨b', hb⟩)
          · cases h
          · cases hb
        rcases hr : w.read b with s | - | -
        · have hval : (getFontDataUri w url).1 = .resolved (some s) := by
            simp [getFontDataUri, hg', hf, hr]
          refine ⟨hfirst, ?_⟩
          rw [hval]
          constructor
          · intro h; cases h
          · rintro ⟨-, -, b', hb, hread⟩
            cases hb
            exact absurd hr (hread s)
        · have hval : (getFontDataUri w url).1 = .rejected := by
            simp [getFontDataUri, hg', hf, hr]
          refine ⟨hfirst, ?_⟩
          rw [hval]
          constructor
          · intro _
            refine ⟨hs, ht, b, rfl, fun s hx => ?_⟩
            rw [hr] at hx
            cases hx
          · intro _; rfl
        · have hval : (getFontDataUri w url).1 = .rejected := by
            simp [getFontDataUri, hg', hf, hr]
          refine ⟨hfirst, ?_⟩
          rw [hval]
          constructor
          · intro _
            refine ⟨hs, ht, b, rfl, fun s hx => ?_⟩
            rw [hr] at hx
            cases hx
          · intro _; rfl

/-- C1 amended witness: a rejecting fetch resolves to `null`, and the
decode-failure environment rejects, both at the local URL
`fonts/a.ttf`. -/
theorem c1_amended_failure_policy_witness :
    (getFontDataUri fetchRejectWorld "fonts/a.ttf").1 = .resolved none ∧
      (getFontDataUri decodeFailWorld "fonts/a.ttf").1 = .rejected :=
  ⟨(c1_amended_failure_policy fetchRejectWorld "fonts/a.ttf").1 (Or.inl rfl),
   (c1_amended_failure_policy decodeFailWorld "fonts/a.ttf").2.mpr
     ⟨by decide, by decide, ⟨[]⟩, rfl, fun _ h => ReaderOutcome.noConfusion h⟩⟩

theorem removeFirstWithId_sublist (id : String) (ls : List (String × String)) :
    (removeFirstWithId id ls).Sublist ls := by
  induction ls with
  | nil => simp [removeFirstWithId]
  | cons l t ih =>
    simp only [removeFirstWithId]
    split
    · exact List.sublist_cons_self l t
    · exact List.Sublist.cons₂ l ih

theorem removeFirstWithId_not_mem (id : String) (ls : List (String × String))
    (hnd : (ls.map Prod.fst).Nodup) :
    ∀ l ∈ removeFirstWithId id ls, l.1 ≠ id := by
  induction ls with
  | nil => simp [removeFirstWithId]
  | cons p t ih =>
    simp only [List.map_cons, List.nodup_cons] at hnd
    obtain ⟨hp, ht⟩ := hnd
    simp only [removeFirstWithId]
    split
    · rename_i hbeq
      have hpid : p.1 = id := by simpa using hbeq
      intro l hl hq
      exact hp (hpid ▸ hq ▸ List.mem_map_of_mem Prod.fst hl)
    · rename_i hbeq
      have hpid : ¬p.1 = id := by simpa using hbeq
      intro l hl
      rcases List.mem_cons.mp hl with rfl | hl'
      · exact hpid
      · exact ih ht l hl'

theorem removeFirstWithId_of_not_mem (id : String) (ls : List (String × String))
    (h : ∀ l ∈ ls, l.1 ≠ id) : removeFirstWithId id ls = ls := by
  induction ls with
  | nil => rfl
  | cons p t ih =>
    simp only [removeFirstWithId]
    rw [if_neg, ih fun l hl => h l (List.mem_cons_of_mem p hl)]
    simp only [beq_iff_eq]
    exact h p (List.mem_cons_self p t)

theorem foldl_removeFirst_sublist (fonts : List FontInfo)
    (ls : List (String × String)) :
    (fonts.foldl (fun ls f => removeFirstWithId (linkId f) ls) ls).Sublist ls := by
  induction fonts generalizing ls with
  | nil => simp
  | cons f t ih =>
    simp only [List.foldl_cons]
    exact (ih _).trans (removeFirstWithId_sublist _ _)

theorem cleanup_removes_all (fonts : List FontInfo) (ls : List (String × String))
    (hnd : (ls.map Prod.fst).Nodup) :
    ∀ f ∈ fonts,
      ∀ l ∈ fonts.foldl (fun ls f => removeFirstWithId (linkId f) ls) ls,
        l.1 ≠ linkId f := by
  induction fonts generalizing ls with
  | nil => simp
  | cons g t ih =>
    intro f hf l hl
    simp only [List.foldl_cons] at hl
    rcases List.mem_cons.mp hf with rfl | hf'
    · have h1 : ∀ l' ∈ removeFirstWithId (linkId f) ls, l'.1 ≠ linkId f :=
        removeFirstWithId_not_mem _ _ hnd
      have hsub := foldl_removeFirst_sublist t (removeFirstWithId (linkId f) ls)
      exact h1 l (hsub.subset hl)
    · have hnd' : ((removeFirstWithId (linkId g) ls).map Prod.fst).Nodup :=
        hnd.sublist ((removeFirstWithId_sublist _ _).map Prod.fst)
      exact ih _ hnd' f hf' l hl

theorem foldl_removeFirst_of_clean (fonts : List FontInfo)
    (ls : List (String × String))
    (h : ∀ f ∈ fonts, ∀ l ∈ ls, l.1 ≠ linkId f) :
    fonts.foldl (fun ls f => removeFirstWithId (linkId f) ls) ls = ls := by
  induction fonts generalizing ls with
  | nil => rfl
  | cons g t ih =>
    simp only [List.foldl_cons]
    rw [removeFirstWithId_of_not_mem _ _ (h g (List.mem_cons_self g t))]
    exact ih ls fun f hf => h f (List.mem_cons_of_mem g hf)

/-- C7: the cleanup routine empties the singleton style element and
removes every `<link>` whose id derives from a descriptor's
`quillValue`; under the DOM invariant that element ids are unique it is
idempotent, and calling it when nothing is present is a no-op. -/
theorem c7_cleanup_removes_and_idempotent (fonts : List FontInfo) (dom : Dom)
    (hnd : (dom.links.map Prod.fst).Nodup) :
    (cleanupFontStyles fonts dom).styleContent = none ∧
      (∀ f ∈ fonts, ∀ l ∈ (cleanupFontStyles fonts dom).links, l.1 ≠ linkId f) ∧
      cleanupFontStyles fonts (cleanupFontStyles fonts dom)
        = cleanupFontStyles fonts dom ∧
      cleanupFontStyles fonts ⟨none, []⟩ = ⟨none, []⟩ := by
  refine ⟨rfl, ?_, ?_, ?_⟩
  · exact fun f hf l hl => cleanup_removes_all fonts dom.links hnd f hf l hl
  · have h := foldl_removeFirst_of_clean fonts
      (fonts.foldl (fun ls f => removeFirstWithId (linkId f) ls) dom.links)
      (cleanup_removes_all fonts dom.links hnd)
    simp [cleanupFontStyles, h]
  · simp [cleanupFontStyles, foldl_removeFirst_of_clean fonts [] (by simp)]

/-- C7 witness: a one-descriptor set whose style element and link are
present, cleaned up twice. -/
theorem c7_cleanup_removes_and_idempotent_witness :
    (cleanupFontStyles [⟨"Arial", "arial", "", "Arial, sans-serif"⟩]
        ⟨some "css", [("font-link-arial", "https://fonts.example/x.css")]⟩).styleContent
        = none ∧
      cleanupFontStyles [⟨"Arial", "arial", "", "Arial, sans-serif"⟩]
          (cleanupFontStyles [⟨"Arial", "arial", "", "Arial, sans-serif"⟩]
            ⟨some "css", [("font-link-arial", "https://fonts.example/x.css")]⟩)
        = cleanupFontStyles [⟨"Arial", "arial", "", "Arial, sans-serif"⟩]
            ⟨some "css", [("font-link-arial", "https://fonts.example/x.css")]⟩ :=
  ⟨(c7_cleanup_removes_and_idempotent [⟨"Arial", "arial", "", "Arial, sans-serif"⟩]
      ⟨some "css", [("font-link-arial", "https://fonts.example/x.css")]⟩
      (by decide)).1,
   (c7_cleanup_removes_and_idempotent [⟨"Arial", "arial", "", "Arial, sans-serif"⟩]
      ⟨some "css", [("font-link-arial", "https://fonts.example/x.css")]⟩
      (by decide)).2.2.1⟩

theorem recGet_buildMap_aux (w : World) (locals : List FontInfo) (n : String)
    (m : UriRecord) (hm : recGet m n = none)
    (h : ∀ f ∈ locals, f.name = n → (getFontDataUri w f.url).1 = .resolved none) :
    recGet (locals.foldl
      (fun m f =>
        match (getFontDataUri w f.url).1 with
        | .resolved (some d) => (f.name, d) :: m
        | _ => m) m) n = none := by
  induction locals generalizing m with
  | nil => exact hm
  | cons f t ih =>
    simp only [List.foldl_cons]
    apply ih
    · rcases hres : (getFontDataUri w f.url).1 with r | -
      · rcases r with - | d
        · simpa [hres] using hm
        · have hne : ¬n = f.name := by
            intro he
            have hc := h f (List.mem_cons_self f t) he.symm
            rw [hres] at hc
            simp at hc
          simp [hres, recGet, hne, hm]
      · simpa [hres] using hm
    · exact fun g hg => h g (List.mem_cons_of_mem f hg)

/-- C3: the injector event can only occur after every local-descriptor
fetch has settled and the registrar has completed; when no loader
promise rejects, the whole operation resolves and the injector does
run; and a name for which every local fetch failed (resolved `null`)
has no entry in the Data-URI Map. -/
theorem c3_orchestrator_order_and_isolation (w : World) (fonts : List FontInfo)
    (st : AppState) :
    (Event.injected ∈ (applyFonts w fonts st).1 →
      (applyFonts w fonts st).1
        = ((fonts.filter fun f => isLocalUrl f.url).map
            fun f => Event.fetchSettled f.name)
          ++ [Event.registered, Event.injected]) ∧
      ((∀ f ∈ fonts, isLocalUrl f.url = true →
          isRejected (getFontDataUri w f.url).1 = false) →
        ∃ res, (applyFonts w fonts st).2 = .resolved res ∧
          Event.injected ∈ (applyFonts w fonts st).1) ∧
      (∀ n, (∀ f ∈ fonts, isLocalUrl f.url = true → f.name = n →
          (getFontDataUri w f.url).1 = .resolved none) →
        recGet (buildMap w (fonts.filter fun f => isLocalUrl f.url)) n = none) := by
  refine ⟨?_, ?_, ?_⟩
  · intro hmem
    by_cases hrej : ((fonts.filter fun f => isLocalUrl f.url).any
        fun f => isRejected (getFontDataUri w f.url).1) = true
    · exfalso
      simp only [applyFonts, hrej, if_true] at hmem
      rcases List.mem_map.mp hmem with ⟨f, -, hf⟩
      cases hf
    · simp [applyFonts, hrej]
  · intro h
    have hrej : ((fonts.filter fun f => isLocalUrl f.url).any
        fun f => isRejected (getFontDataUri w f.url).1) = false := by
      rw [List.any_eq_false]
      intro f hf
      rcases List.mem_filter.mp hf with ⟨hf1, hf2⟩
      simp [h f hf1 hf2]
    have h2 : (applyFonts w fonts st).2
        = .resolved
          (⟨(injectFontStyles fonts
                (buildMap w (fonts.filter fun f => isLocalUrl f.url)) st.dom).dom,
            registerQuillFonts fonts st.quill⟩,
           (injectFontStyles fonts
              (buildMap w (fonts.filter fun f => isLocalUrl f.url)) st.dom).warnings) := by
      simp [applyFonts, hrej]
    exact ⟨_, h2, by simp [applyFonts, hrej]⟩
  · intro n hn
    apply recGet_buildMap_aux w _ n [] rfl
    intro f hf hname
    rcases List.mem_filter.mp hf with ⟨hf1, hf2⟩
    exact hn f hf1 hf2 hname

/-- C3 witness: one local descriptor whose fetch rejects — the loader
converts it to `null`, the run resolves with the full event order, and
the map has no entry for the name. -/
theorem c3_orchestrator_order_and_isolation_witness :
    (applyFonts fetchRejectWorld [⟨"Custom", "custom", "fonts/c.ttf", "C"⟩]
        ⟨⟨none, []⟩, ⟨[], none⟩⟩).1
        = [Event.fetchSettled "Custom", Event.registered, Event.injected] ∧
      recGet (buildMap fetchRejectWorld
          ([⟨"Custom", "custom", "fonts/c.ttf", "C"⟩].filter
            fun f => isLocalUrl f.url)) "Custom"
        = none :=
  ⟨(((c3_orchestrator_order_and_isolation fetchRejectWorld
      [⟨"Custom", "custom", "fonts/c.ttf", "C"⟩] ⟨⟨none, []⟩, ⟨[], none⟩⟩).1
      (by decide)).trans (by decide)),
   ((c3_orchestrator_order_and_isolation fetchRejectWorld
      [⟨"Custom", "custom", "fonts/c.ttf", "C"⟩] ⟨⟨none, []⟩, ⟨[], none⟩⟩).2.2
      "Custom" (by decide))⟩

theorem linkId_injective {a b : FontInfo} (h : linkId a = linkId b) :
    a.quillValue = b.quillValue := by
  unfold linkId at h
  have hd := congrArg String.data h
  simp only [String.data_append] at hd
  exact String.ext (List.append_cancel_left hd)

theorem fontAction_linkCandidate_eq (uris : UriRecord) (font : FontInfo) :
    (fontAction uris font).linkCandidate
      = if isExternalCssLink font.url = true then some (linkId font, font.url)
        else none := by
  by_cases h : isExternalCssLink font.url = true
  · simp [fontAction, h]
  · have h' : isExternalCssLink font.url = false := by simpa using h
    simp only [fontAction, h', Bool.false_eq_true, if_false]
    split
    · rfl
    · split
      · cases recGet uris font.name <;> rfl
      · rfl

theorem addLink_none (ls : List (String × String)) : addLink ls none = ls := rfl

theorem addLink_some (ls : List (String × String)) (id href : String) :
    addLink ls (some (id, href))
      = if (ls.any fun l => l.1 == id) = true then ls else ls ++ [(id, href)] := rfl

theorem addLink_append (ls : List (String × String)) (c : Option (String × String)) :
    ∃ new, addLink ls c = ls ++ new := by
  rcases c with - | ⟨id, href⟩
  · exact ⟨[], (List.append_nil ls).symm⟩
  · rw [addLink_some]
    by_cases h : (ls.any fun l => l.1 == id) = true
    · rw [if_pos h]; exact ⟨[], (List.append_nil ls).symm⟩
    · rw [if_neg h]; exact ⟨[(id, href)], rfl⟩

theorem foldl_addLink_append (acts : List FontAction) (ls : List (String × String)) :
    ∃ new, acts.foldl (fun ls a => addLink ls a.linkCandidate) ls = ls ++ new := by
  induction acts generalizing ls with
  | nil => exact ⟨[], (List.append_nil ls).symm⟩
  | cons a t ih =>
    simp only [List.foldl_cons]
    obtain ⟨d1, hd1⟩ := addLink_append ls a.linkCandidate
    obtain ⟨d2, hd2⟩ := ih (addLink ls a.linkCandidate)
    exact ⟨d1 ++ d2, by rw [hd2, hd1, List.append_assoc]⟩

theorem foldl_addLink_preserves_any (acts : List FontAction)
    (ls : List (String × String)) (id : String)
    (h : (ls.any fun l => l.1 == id) = true) :
    ((acts.foldl (fun ls a => addLink ls a.linkCandidate) ls).any
      fun l => l.1 == id) = true := by
  obtain ⟨new, hnew⟩ := foldl_addLink_append acts ls
  rw [hnew, List.any_append, h]
  rfl

theorem foldl_addLink_candidate_present (acts : List FontAction)
    (ls : List (String × String)) (a : FontAction) (ha : a ∈ acts)
    (id href : String) (hc : a.linkCandidate = some (id, href)) :
    ((acts.foldl (fun ls a => addLink ls a.linkCandidate) ls).any
      fun l => l.1 == id) = true := by
  induction acts generalizing ls with
  | nil => cases ha
  | cons b t ih =>
    simp only [List.foldl_cons]
    rcases List.mem_cons.mp ha with rfl | ha'
    · apply foldl_addLink_preserves_any
      rw [hc, addLink_some]
      by_cases h : (ls.any fun l => l.1 == id) = true
      · rw [if_pos h]; exact h
      · rw [if_neg h, List.any_append]
        simp
    · exact ih _ ha'

theorem foldl_addLink_all_present (acts : List FontAction)
    (ls : List (String × String))
    (h : ∀ a ∈ acts, ∀ id href, a.linkCandidate = some (id, href) →
      (ls.any fun l => l.1 == id) = true) :
    acts.foldl (fun ls a => addLink ls a.linkCandidate) ls = ls := by
  induction acts generalizing ls with
  | nil => rfl
  | cons b t ih =>
    simp only [List.foldl_cons]
    have hb : addLink ls b.linkCandidate = ls := by
      rcases hc : b.linkCandidate with - | ⟨id, href⟩
      · rfl
      · rw [addLink_some, if_pos (h b (List.mem_cons_self b t) id href hc)]
    rw [hb]
    exact ih ls fun a ha => h a (List.mem_cons_of_mem b ha)

theorem foldl_addLink_filter_preserved (acts : List FontAction)
    (ls : List (String × String)) (i href : String)
    (hls : ls.filter (fun l => l.1 == i) = [(i, href)]) :
    (acts.foldl (fun ls a => addLink ls a.linkCandidate) ls).filter
      (fun l => l.1 == i) = [(i, href)] := by
  induction acts generalizing ls with
  | nil => exact hls
  | cons b t ih =>
    simp only [List.foldl_cons]
    apply ih
    rcases hc : b.linkCandidate with - | ⟨id, h2⟩
    · exact hls
    · rw [addLink_some]
      by_cases hid : (id == i) = true
      · have hidq : id = i := by simpa using hid
        subst hidq
        have hmemf : (id, href) ∈ ls.filter (fun l => l.1 == id) := by
          rw [hls]; exact List.mem_singleton.mpr rfl
        rcases List.mem_filter.mp hmemf with ⟨hmem, hp⟩
        have hany : (ls.any fun l => l.1 == id) = true :=
          List.any_eq_true.mpr ⟨(id, href), hmem, hp⟩
        rw [if_pos hany]
        exact hls
      · have hid' : (id == i) = false := by simpa using hid
        by_cases hany : (ls.any fun l => l.1 == id) = true
        · rw [if_pos hany]
          exact hls
        · rw [if_neg hany, List.filter_append, hls]
          simp [hid']

theorem foldl_addLink_filter_single (acts : List FontAction)
    (ls : List (String × String)) (i href : String)
    (hls : ls.filter (fun l => l.1 == i) = [])
    (hacts : (acts.filterMap (fun a => a.linkCandidate)).filter
      (fun l => l.1 == i) = [(i, href)]) :
    (acts.foldl (fun ls a => addLink ls a.linkCandidate) ls).filter
      (fun l => l.1 == i) = [(i, href)] := by
  induction acts generalizing ls with
  | nil => simp at hacts
  | cons b t ih =>
    simp only [List.foldl_cons]
    rcases hc : b.linkCandidate with - | ⟨id, h2⟩
    · simp only [List.filterMap_cons, hc] at hacts
      exact ih ls hls hacts
    · simp only [List.filterMap_cons, hc] at hacts
      by_cases hid : (id == i) = true
      · have hidq : id = i := by simpa using hid
        subst hidq
        rw [List.filter_cons_of_pos (by simp)] at hacts
        obtain ⟨h1, htail⟩ := List.cons_eq_cons.mp hacts
        have hh : h2 = href := congrArg Prod.snd h1
        have hany : (ls.any fun l => l.1 == id) = false := by
          rw [List.any_eq_false]
          intro l hl hp
          have hmf : l ∈ ls.filter (fun l => l.1 == id) :=
            List.mem_filter.mpr ⟨hl, hp⟩
          rw [hls] at hmf
          cases hmf
        rw [addLink_some, if_neg (by simp [hany]), hh]
        apply foldl_addLink_filter_preserved
        rw [List.filter_append, hls]
        simp
      · have hid' : (id == i) = false := by simpa using hid
        rw [List.filter_cons_of_neg (by simp [hid'])] at hacts
        rw [addLink_some]
        by_cases hany : (ls.any fun l => l.1 == id) = true
        · rw [if_pos hany]
          exact ih ls hls hacts
        · rw [if_neg hany]
          apply ih
          · rw [List.filter_append, hls]
            simp [hid']
          · exact hacts

theorem cands_filter_single (uris : UriRecord) (fonts : List FontInfo)
    (font : FontInfo) (hnd : (fonts.map (fun f => f.quillValue)).Nodup)
    (hf : font ∈ fonts) (hcss : isExternalCssLink font.url = true) :
    ((fonts.map (fontAction uris)).filterMap (fun a => a.linkCandidate)).filter
        (fun l => l.1 == linkId font)
      = [(linkId font, font.url)] := by
  induction fonts with
  | nil => cases hf
  | cons g t ih =>
    simp only [List.map_cons, List.nodup_cons] at hnd
    obtain ⟨hg, ht⟩ := hnd
    rcases List.mem_cons.mp hf with rfl | hf'
    · simp only [List.map_cons, List.filterMap_cons, fontAction_linkCandidate_eq,
        hcss, if_pos]
      rw [List.filter_cons_of_pos (by simp)]
      have htail : ((t.map (fontAction uris)).filterMap
          (fun a => a.linkCandidate)).filter (fun l => l.1 == linkId font) = [] := by
        rw [List.filter_eq_nil_iff]
        intro l hl hp
        rcases List.mem_filterMap.mp hl with ⟨a, haa, hca⟩
        rcases List.mem_map.mp haa with ⟨g', hg', rfl⟩
        rw [fontAction_linkCandidate_eq] at hca
        by_cases hcg : isExternalCssLink g'.url = true
        · rw [if_pos hcg] at hca
          have hobj := Option.some.inj hca
          have hl1 : linkId g' = linkId font := by
            have h2 := beq_iff_eq.mp hp
            rw [← hobj] at h2
            exact h2
          exact hg ((linkId_injective hl1) ▸ List.mem_map_of_mem _ hg')
        · rw [if_neg hcg] at hca
          cases hca
      rw [htail]
    · have hres := ih ht hf'
      by_cases hcg : isExternalCssLink g.url = true
      · have hsome : (fontAction uris g).linkCandidate = some (linkId g, g.url) := by
          rw [fontAction_linkCandidate_eq, if_pos hcg]
        simp only [List.map_cons, List.filterMap_cons, hsome]
        rw [List.filter_cons_of_neg, hres]
        have hne : g.quillValue ≠ font.quillValue := by
          intro he
          exact hg (he ▸ List.mem_map_of_mem _ hf')
        simp only [beq_iff_eq]
        intro he
        exact hne (linkId_injective he)
      · have hnone : (fontAction uris g).linkCandidate = none := by
          rw [fontAction_linkCandidate_eq, if_neg hcg]
        simp only [List.map_cons, List.filterMap_cons, hnone]
        exact hres


/-- C6: re-invoking the injector with the same descriptor set fully
replaces the singleton style element's text (the result is not
additive); a descriptor matching the CSS-service heuristic yields
exactly one `<link>` with `href` equal to its URL, de-duplicated by id,
and a second call creates no duplicate and never removes or re-creates
an existing link. -/
theorem c6_reinject_replaces_and_dedups (fonts : List FontInfo)
    (uris : UriRecord) (dom : Dom) (font : FontInfo)
    (hnd : (fonts.map (fun f => f.quillValue)).Nodup)
    (hf : font ∈ fonts) (hcss : isExternalCssLink font.url = true)
    (hnew : dom.links.filter (fun l => l.1 == linkId font) = []) :
    (injectFontStyles fonts uris dom).dom.styleContent
        = some (String.join ((injectCssItems uris fonts).map renderCssItem)) ∧
      (injectFontStyles fonts uris
          (injectFontStyles fonts uris dom).dom).dom.styleContent
        = (injectFontStyles fonts uris dom).dom.styleContent ∧
      (∃ new, (injectFontStyles fonts uris dom).dom.links = dom.links ++ new) ∧
      (injectFontStyles fonts uris dom).dom.links.filter
          (fun l => l.1 == linkId font) = [(linkId font, font.url)] ∧
      (injectFontStyles fonts uris
          (injectFontStyles fonts uris dom).dom).dom.links
        = (injectFontStyles fonts uris dom).dom.links := by
  refine ⟨rfl, rfl, ?_, ?_, ?_⟩
  · exact foldl_addLink_append (fonts.map (fontAction uris)) dom.links
  · exact foldl_addLink_filter_single (fonts.map (fontAction uris)) dom.links
      (linkId font) font.url hnew (cands_filter_single uris fonts font hnd hf hcss)
  · exact foldl_addLink_all_present (fonts.map (fontAction uris)) _
      fun a ha id href hc =>
        foldl_addLink_candidate_present (fonts.map (fontAction uris))
          dom.links a ha id href hc

/-- C6 witness: a Google-Fonts CSS-service descriptor injected twice
into an empty document. -/
theorem c6_reinject_replaces_and_dedups_witness :
    (injectFontStyles
        [⟨"Roboto", "roboto", "https://fonts.googleapis.com/css2?family=Roboto",
          "Roboto, sans-serif"⟩] [] ⟨none, []⟩).dom.links.filter
        (fun l => l.1 == linkId ⟨"Roboto", "roboto",
          "https://fonts.googleapis.com/css2?family=Roboto", "Roboto, sans-serif"⟩)
        = [(linkId ⟨"Roboto", "roboto",
            "https://fonts.googleapis.com/css2?family=Roboto", "Roboto, sans-serif"⟩,
           "https://fonts.googleapis.com/css2?family=Roboto")] ∧
      (injectFontStyles
          [⟨"Roboto", "roboto", "https://fonts.googleapis.com/css2?family=Roboto",
            "Roboto, sans-serif"⟩] []
          (injectFontStyles
            [⟨"Roboto", "roboto", "https://fonts.googleapis.com/css2?family=Roboto",
              "Roboto, sans-serif"⟩] [] ⟨none, []⟩).dom).dom.links
        = (injectFontStyles
            [⟨"Roboto", "roboto", "https://fonts.googleapis.com/css2?family=Roboto",
              "Roboto, sans-serif"⟩] [] ⟨none, []⟩).dom.links :=
  ⟨(c6_reinject_replaces_and_dedups
      [⟨"Roboto", "roboto", "https://fonts.googleapis.com/css2?family=Roboto",
        "Roboto, sans-serif"⟩] [] ⟨none, []⟩
      ⟨"Roboto", "roboto", "https://fonts.googleapis.com/css2?family=Roboto",
        "Roboto, sans-serif"⟩
      (by decide) (List.mem_cons_self _ _) (by decide) rfl).2.2.2.1,
   (c6_reinject_replaces_and_dedups
      [⟨"Roboto", "roboto", "https://fonts.googleapis.com/css2?family=Roboto",
        "Roboto, sans-serif"⟩] [] ⟨none, []⟩
      ⟨"Roboto", "roboto", "https://fonts.googleapis.com/css2?family=Roboto",
        "Roboto, sans-serif"⟩
      (by decide) (List.mem_cons_self _ _) (by decide) rfl).2.2.2.2⟩

end FontHelper
